import Mathlib

/-!
Verification development for the mandeltrace renderer (src/main.rs).

The floating-point (`f64`/`f32`) arithmetic of the source is embedded as exact
rational arithmetic over `ℚ`; the complex exponent `powf` is modelled at
natural-number exponents, where the polar-form power of the source coincides
with repeated multiplication in exact arithmetic (including `0^p = 0` for
`p ≥ 1` and `0^0 = 1`, matching `Complex64::powf` at `z = 0`).
-/

/-- Draw-mode filter, from `enum DrawMode` in the source. -/
inductive DrawMode where
  | All
  | Escaped
  | Trapped
deriving DecidableEq

/-- Configuration record, from `struct Args` in the source.  The `image_name`
field (out-of-scope file I/O) is omitted; `bounds`, `delta`, `zoom`, the
offsets are `f64` modelled as `ℚ`; `pow` is modelled at natural exponents. -/
structure Args where
  size : ℕ
  bounds : ℚ
  delta : ℚ
  limit : ℕ
  zoom : ℚ
  re_off : ℚ
  im_off : ℚ
  chunk_len : ℕ
  opacity : ℕ
  mode : DrawMode
  overlay_mandel : Bool
  pow : ℕ
deriving DecidableEq

/-- Complex number with exact rational components, modelling `Complex64`. -/
structure Cq where
  re : ℚ
  im : ℚ
deriving DecidableEq

/-- Complex addition. -/
def Cq.add (z w : Cq) : Cq := ⟨z.re + w.re, z.im + w.im⟩

/-- Complex multiplication. -/
def Cq.mul (z w : Cq) : Cq := ⟨z.re * w.re - z.im * w.im, z.re * w.im + z.im * w.re⟩

/-- Complex power at a natural exponent, modelling `Complex64::powf` for
integer-valued exponents (exact polar-form power equals repeated
multiplication). -/
def Cq.powNat (z : Cq) : ℕ → Cq
  | 0 => ⟨1, 0⟩
  | n + 1 => (Cq.powNat z n).mul z

/-- Squared norm, modelling `Complex64::norm_sqr`. -/
def Cq.normSq (z : Cq) : ℚ := z.re * z.re + z.im * z.im

/-- The dynamical map, from `fn mandelbrot`: `z.powf(args.pow) + Complex64::new(x, y)`. -/
def mandelbrot (z : Cq) (coord : ℚ × ℚ) (args : Args) : Cq :=
  (z.powNat args.pow).add ⟨coord.1, coord.2⟩

/-- Truncation toward zero of a rational, the rounding of Rust `as i32` on an
in-range value. -/
def ratTrunc (q : ℚ) : ℤ := if 0 ≤ q then ⌊q⌋ else ⌈q⌉

/-- Saturating cast to `i32`, modelling Rust `f64 as i32`. -/
def toI32 (q : ℚ) : ℤ := max (-(2 ^ 31)) (min (2 ^ 31 - 1) (ratTrunc q))

/-- Plane-to-pixel transform, from `fn to_image_coord`. -/
def to_image_coord (z : Cq) (args : Args) : ℤ × ℤ :=
  (toI32 ((args.size : ℚ) / 2 + (z.re + args.re_off) * args.zoom),
   toI32 ((args.size : ℚ) / 2 + (z.im + args.im_off) * args.zoom))

/-- Pixel-to-plane transform, from `fn to_complex_coord`. -/
def to_complex_coord (x y : ℕ) (args : Args) : Cq :=
  ⟨((x : ℚ) - (args.size : ℚ) / 2) / args.zoom - args.re_off,
   ((y : ℚ) - (args.size : ℚ) / 2) / args.zoom - args.im_off⟩

/-- The `for _ in 0..limit` loop body of `fn iterate_coordinate`: apply the map,
push the new value, and stop (escaped) as soon as a component exits the bound.
Returns the values pushed by the loop and the `did_escape` flag. -/
def iterLoop (args : Args) (coord : ℚ × ℚ) : ℕ → Cq → List Cq × Bool
  | 0, _ => ([], false)
  | n + 1, z =>
    let w := mandelbrot z coord args
    if |w.im| > args.bounds ∨ |w.re| > args.bounds then
      ([w], true)
    else
      let r := iterLoop args coord n w
      (w :: r.1, r.2)

/-- The trace and escape flag of `fn iterate_coordinate` before draw-mode
filtering: the first pushed value is `mandelbrot(0, c)` (line 114 of the
source applies the map to `Complex64::default()` before the loop). -/
def iterPoints (args : Args) (coord : ℚ × ℚ) : List Cq × Bool :=
  let z := mandelbrot ⟨0, 0⟩ coord args
  let r := iterLoop args coord args.limit z
  (z :: r.1, r.2)

/-- `fn iterate_coordinate`: the trace, kept or discarded by the draw-mode match. -/
def iterate_coordinate (coord : ℚ × ℚ) (args : Args) : Option (List Cq) :=
  let r := iterPoints args coord
  match args.mode, r.2 with
  | DrawMode.All, _ => some r.1
  | DrawMode.Escaped, true => some r.1
  | DrawMode.Trapped, false => some r.1
  | _, _ => none

/-- Replace the draw mode of a configuration, leaving every other field fixed. -/
def setMode (a : Args) (m : DrawMode) : Args :=
  ⟨a.size, a.bounds, a.delta, a.limit, a.zoom, a.re_off, a.im_off, a.chunk_len,
   a.opacity, m, a.overlay_mandel, a.pow⟩

/-- Number of grid samples per axis: the least `k` with `-bounds + k * delta ≥ bounds`. -/
def numCoords (b d : ℚ) : ℕ := ⌈2 * b / d⌉₊

/-- The per-axis sample list, from `main`: the stream `(0_u32..).map(|x| -bounds +
x as f64 * delta)` cut by `take_while(|&x| x < bounds)`.  The stream is modelled
by its first `M` elements; any `M ≥ numCoords bounds delta` reaches the cut. -/
def gridCoords (b d : ℚ) (M : ℕ) : List ℚ :=
  ((List.range M).map fun k : ℕ => -b + (k : ℚ) * d).takeWhile fun x => decide (x < b)

/-- The full coordinate grid, from `main`:
`coords.iter().cartesian_product(coords.iter())`. -/
def allCoords (b d : ℚ) (M : ℕ) : List (ℚ × ℚ) :=
  (gridCoords b d M).product (gridCoords b d M)

/-- An 8-bit RGBA pixel (components as naturals). -/
structure Rgba where
  r : ℕ
  g : ℕ
  b : ℕ
  a : ℕ
deriving DecidableEq

/-- The escape loop of the overlay closure in `main`: from `z = 0`, apply the
map up to `limit` times, escaping when `z.norm_sqr() > 4.0`. -/
def overlayLoop (args : Args) (c : ℚ × ℚ) : ℕ → Cq → Bool
  | 0, _ => false
  | n + 1, z =>
    let w := mandelbrot z c args
    if w.normSq > 4 then true else overlayLoop args c n w

/-- One pixel of the escape-time overlay mask, from the `RgbaImage::from_fn`
closure in `main`. -/
def overlayColor (args : Args) (x y : ℕ) : Rgba :=
  let cmpl := to_complex_coord x y args
  if overlayLoop args (cmpl.re, cmpl.im) args.limit ⟨0, 0⟩ then
    ⟨128, 0, 0, 255⟩
  else
    ⟨0, 0, 0, 255⟩

/-- A 16-bit luminance+alpha pixel (components as naturals, values `< 2^16`). -/
structure LumaA16 where
  luma : ℕ
  alpha : ℕ
deriving DecidableEq

/-- The stage-1 compositor source pixel, from `fn to_u8_image`:
`Rgba([255, 255, 255, (i[0] >> 8) as u8])` — the pixel that is alpha-blended
into the 8-bit output for each 16-bit canvas pixel `i`. -/
def toU8Source (p : LumaA16) : Rgba :=
  ⟨255, 255, 255, p.luma >>> 8 % 2 ^ 8⟩

/-- Modelled from the spec: a canvas pixel in normalized straight-alpha
luminance+alpha space (§4.5; the `image` crate `LumaA<u16>` values scaled by
`1 / 65535`, with the crate method `Pixel::blend` an external dependency whose
`f32`/`u16` rounding is not modelled). -/
structure Pix where
  luma : ℚ
  alpha : ℚ
deriving DecidableEq

/-- Modelled from the spec: standard straight-alpha "source over destination"
compositing of `fg` over `bg` (§4.5 contexts 1 and 2; the crate method
`bg.blend(&fg)`), with the existing pixel kept when the resulting alpha is
zero. -/
def Pix.blend (bg fg : Pix) : Pix :=
  let aOut := bg.alpha + fg.alpha - bg.alpha * fg.alpha
  if aOut = 0 then bg
  else ⟨(fg.luma * fg.alpha + bg.luma * bg.alpha * (1 - fg.alpha)) / aOut, aOut⟩

/-- The repository blend callback `fn blend`: scale the alpha of the incoming color
by the rasterizer coverage fraction, then composite it over the existing
pixel. -/
def blend (a b : Pix) (alpha : ℚ) : Pix :=
  Pix.blend b ⟨a.luma, a.alpha * alpha⟩

/-- The line color `LumaA([u16::max_value(), args.opacity])` in normalized
form, with `opacity ∈ [0, 1]` the normalized base opacity. -/
def lineColor (opacity : ℚ) : Pix := ⟨1, opacity⟩

/-- The canvas pixels reachable by the chunk renderer: zero-initialized, then
repeatedly blended with the line color at some anti-aliasing coverage. -/
inductive ChunkPix (opacity : ℚ) : Pix → Prop
  | zero : ChunkPix opacity ⟨0, 0⟩
  | draw (p : Pix) (cov : ℚ) : 0 ≤ cov → cov ≤ 1 → ChunkPix opacity p →
      ChunkPix opacity (blend (lineColor opacity) p cov)

/-- Invariant satisfied by every chunk-renderer pixel: untouched, or full
luminance with alpha in `(0, 1]`. -/
def GoodPix (p : Pix) : Prop :=
  p = ⟨0, 0⟩ ∨ (p.luma = 1 ∧ 0 < p.alpha ∧ p.alpha ≤ 1)

instance (p : Pix) : Decidable (GoodPix p) := by
  unfold GoodPix
  infer_instance

/-- The per-pixel canvas fold of the parallel reduce in `main`:
`blend.pixels_mut().zip(chunk.pixels()).for_each(|(o, i)| o.blend(i))`,
canvases flattened to pixel lists in `pixels()` order. -/
def canvasBlend (acc chunk : List Pix) : List Pix :=
  List.zipWith Pix.blend acc chunk

/-- The reduction identity canvas `Image::from_pixel(size, size, LumaA([0, 0]))`. -/
def zeroCanvas (n : ℕ) : List Pix := List.replicate n ⟨0, 0⟩

/-- A canvas of dimension `n` every pixel of which the chunk renderer can
produce at base opacity `opacity`. -/
def ChunkCanvas (opacity : ℚ) (n : ℕ) (c : List Pix) : Prop :=
  c.length = n ∧ ∀ p ∈ c, ChunkPix opacity p

/-- Alpha accumulation of straight alpha-over: `a ⊕ b = a + b - a * b`. -/
def aJoin (a b : ℚ) : ℚ := a + b - a * b

/-- The good pixel determined by an accumulated alpha: untouched for alpha
zero, full luminance otherwise. -/
def pixOf (a : ℚ) : Pix := if a = 0 then ⟨0, 0⟩ else ⟨1, a⟩

example : (iterPoints ⟨10, 2, 2, 1, 1, 0, 0, 50, 64, DrawMode.All, false, 2⟩ (0, 0)).1 =
    [⟨0, 0⟩, ⟨0, 0⟩] := by
  norm_num [iterPoints, iterLoop, mandelbrot, Cq.powNat, Cq.mul, Cq.add]

example : (iterPoints ⟨10, 2, 2, 1, 1, 0, 0, 50, 64, DrawMode.All, false, 2⟩ (3, 3)).1 =
    [⟨3, 3⟩, ⟨3, 21⟩] := by
  norm_num [iterPoints, iterLoop, mandelbrot, Cq.powNat, Cq.mul, Cq.add]

example : (iterPoints ⟨10, 2, 2, 1, 1, 0, 0, 50, 64, DrawMode.All, false, 2⟩ (3, 3)).2 = true := by
  norm_num [iterPoints, iterLoop, mandelbrot, Cq.powNat, Cq.mul, Cq.add]

lemma iterLoop_length_le (args : Args) (c : ℚ × ℚ) :
    ∀ (n : ℕ) (z : Cq), (iterLoop args c n z).1.length ≤ n := by
  intro n
  induction n with
  | zero => intro z; simp [iterLoop]
  | succ n ih =>
    intro z
    by_cases h : |(mandelbrot z c args).im| > args.bounds ∨ |(mandelbrot z c args).re| > args.bounds
    · simp [iterLoop, h]
    · simp only [iterLoop, h, if_false, List.length_cons]
      exact Nat.succ_le_succ (ih _)

lemma iterLoop_trapped_length (args : Args) (c : ℚ × ℚ) :
    ∀ (n : ℕ) (z : Cq), (iterLoop args c n z).2 = false → (iterLoop args c n z).1.length = n := by
  intro n
  induction n with
  | zero => intro z _; simp [iterLoop]
  | succ n ih =>
    intro z hesc
    by_cases h : |(mandelbrot z c args).im| > args.bounds ∨ |(mandelbrot z c args).re| > args.bounds
    · simp [iterLoop, h] at hesc
    · simp only [iterLoop, h, if_false, List.length_cons] at hesc ⊢
      exact congrArg Nat.succ (ih _ hesc)

lemma powNat_zero_eq : ∀ n : ℕ, 1 ≤ n → Cq.powNat ⟨0, 0⟩ n = ⟨0, 0⟩
  | 0, h => absurd h (by omega)
  | n + 1, _ => by simp [Cq.powNat, Cq.mul]

lemma setMode_bounds (a : Args) (m : DrawMode) : (setMode a m).bounds = a.bounds := rfl

lemma setMode_limit (a : Args) (m : DrawMode) : (setMode a m).limit = a.limit := rfl

lemma setMode_pow (a : Args) (m : DrawMode) : (setMode a m).pow = a.pow := rfl

lemma setMode_mode (a : Args) (m : DrawMode) : (setMode a m).mode = m := rfl

lemma iterLoop_setMode (a : Args) (m : DrawMode) (c : ℚ × ℚ) :
    ∀ (n : ℕ) (z : Cq), iterLoop (setMode a m) c n z = iterLoop a c n z := by
  intro n
  induction n with
  | zero => intro z; rfl
  | succ n ih =>
    intro z
    simp only [iterLoop, mandelbrot, setMode_bounds, setMode_pow, ih]

lemma iterPoints_setMode (a : Args) (m : DrawMode) (c : ℚ × ℚ) :
    iterPoints (setMode a m) c = iterPoints a c := by
  simp only [iterPoints, mandelbrot, setMode_limit, setMode_pow, iterLoop_setMode a m c]

/-- C3 (amended): for every coordinate and configuration, the orbit trace has
length in `[1, limit + 1]`, and a trace that is not classified escaped has
length exactly `limit + 1` — hence a trace length of at most `limit` forces
the escaped classification.  (The original iff fails: an orbit escaping on the
final allowed iteration is classified escaped with length `limit + 1`.) -/
theorem iterate_trace_length (args : Args) (c : ℚ × ℚ) :
    1 ≤ (iterPoints args c).1.length ∧ (iterPoints args c).1.length ≤ args.limit + 1 ∧
      ((iterPoints args c).2 = false → (iterPoints args c).1.length = args.limit + 1) := by
  refine ⟨by simp [iterPoints], ?_, ?_⟩
  · have := iterLoop_length_le args c args.limit (mandelbrot ⟨0, 0⟩ c args)
    simp only [iterPoints, List.length_cons]
    omega
  · intro h
    have := iterLoop_trapped_length args c args.limit (mandelbrot ⟨0, 0⟩ c args)
      (by simpa [iterPoints] using h)
    simp only [iterPoints, List.length_cons]
    omega

/-- C3 instantiation witness at a concrete configuration and coordinate. -/
theorem iterate_trace_length_witness :
    1 ≤ (iterPoints ⟨10, 2, 2, 1, 1, 0, 0, 50000, 64, DrawMode.All, false, 2⟩ (0, 0)).1.length ∧
      (iterPoints ⟨10, 2, 2, 1, 1, 0, 0, 50000, 64, DrawMode.All, false, 2⟩ (0, 0)).1.length ≤
        (⟨10, 2, 2, 1, 1, 0, 0, 50000, 64, DrawMode.All, false, 2⟩ : Args).limit + 1 ∧
      ((iterPoints ⟨10, 2, 2, 1, 1, 0, 0, 50000, 64, DrawMode.All, false, 2⟩ (0, 0)).2 = false →
        (iterPoints ⟨10, 2, 2, 1, 1, 0, 0, 50000, 64, DrawMode.All, false, 2⟩ (0, 0)).1.length =
          (⟨10, 2, 2, 1, 1, 0, 0, 50000, 64, DrawMode.All, false, 2⟩ : Args).limit + 1) :=
  iterate_trace_length ⟨10, 2, 2, 1, 1, 0, 0, 50000, 64, DrawMode.All, false, 2⟩ (0, 0)

/-- C3 counterexample: with `limit = 1`, `bounds = 2`, `pow = 2`, the coordinate
`(3, 3)` escapes on the final (first) loop iteration: the flag is escaped even
though the trace length `2` exceeds `limit = 1`, refuting the claimed
equivalence between the escaped flag and `length ≤ limit`. -/
theorem iterate_trace_length_cex :
    (iterPoints ⟨10, 2, 2, 1, 1, 0, 0, 50000, 64, DrawMode.All, false, 2⟩ (3, 3)).2 = true ∧
      ¬((iterPoints ⟨10, 2, 2, 1, 1, 0, 0, 50000, 64, DrawMode.All, false, 2⟩ (3, 3)).1.length ≤
        (⟨10, 2, 2, 1, 1, 0, 0, 50000, 64, DrawMode.All, false, 2⟩ : Args).limit) := by
  norm_num [iterPoints, iterLoop, mandelbrot, Cq.powNat, Cq.mul, Cq.add]

/-- C2 (amended): the first recorded element of the orbit trace is the first
iterate `mandelbrot 0 c = 0 ^ pow + c` (equal to `c` itself whenever
`pow ≥ 1`); the starting value `z0 = 0` is not recorded. -/
theorem trace_first_element (args : Args) (c : ℚ × ℚ) :
    (iterPoints args c).1.head? = some (mandelbrot ⟨0, 0⟩ c args) ∧
      (1 ≤ args.pow → (iterPoints args c).1.head? = some ⟨c.1, c.2⟩) := by
  refine ⟨rfl, fun hp => ?_⟩
  simp [iterPoints, mandelbrot, powNat_zero_eq args.pow hp, Cq.add]

/-- C2 witness: at `pow = 2` the first recorded element of the trace of
`c = (1, 0)` is `c` itself. -/
theorem trace_first_element_witness :
    1 ≤ (⟨10, 2, 2, 1, 1, 0, 0, 50000, 64, DrawMode.All, false, 2⟩ : Args).pow ∧
      (iterPoints ⟨10, 2, 2, 1, 1, 0, 0, 50000, 64, DrawMode.All, false, 2⟩ (1, 0)).1.head? =
        some ⟨1, 0⟩ := by
  refine ⟨by norm_num, ?_⟩
  have h := (trace_first_element ⟨10, 2, 2, 1, 1, 0, 0, 50000, 64, DrawMode.All, false, 2⟩
    (1, 0)).2 (by norm_num)
  simpa using h

/-- C2 counterexample: the trace of `c = (1, 0)` (with `pow = 2`) starts with
`c = 1 + 0i`, not with the starting value `z0 = 0 + 0i`. -/
theorem trace_first_element_cex :
    (iterPoints ⟨10, 2, 2, 1, 1, 0, 0, 50000, 64, DrawMode.All, false, 2⟩ (1, 0)).1.head? ≠
      some ⟨0, 0⟩ := by
  norm_num [iterPoints, mandelbrot, Cq.powNat, Cq.mul, Cq.add]

/-- C5 (amended): for every coordinate `c` and configuration with `limit ≥ 1`
such that the second iterate `z2 = mandelbrot (mandelbrot 0 c) c` leaves the
per-component bound (`|Im z2| > bounds` or `|Re z2| > bounds`), the orbit
escapes on the first loop iteration: the trace has length exactly 2 and is
classified escaped.  (The condition `|c| > bounds` of the original claim does
not suffice: the first recorded value is never bound-checked and the next
iterate can re-enter the bound.) -/
theorem first_iteration_escape (args : Args) (c : ℚ × ℚ) (hl : 1 ≤ args.limit)
    (h : |(mandelbrot (mandelbrot ⟨0, 0⟩ c args) c args).im| > args.bounds ∨
         |(mandelbrot (mandelbrot ⟨0, 0⟩ c args) c args).re| > args.bounds) :
    (iterPoints args c).1.length = 2 ∧ (iterPoints args c).2 = true := by
  obtain ⟨m, hm⟩ : ∃ m, args.limit = m + 1 := ⟨args.limit - 1, by omega⟩
  constructor <;> simp [iterPoints, hm, iterLoop, h]

/-- C5 witness: with `bounds = 2`, `pow = 2`, `limit = 3`, the coordinate
`(3, 3)` satisfies the second-iterate escape condition and its trace has
length 2 and is escaped. -/
theorem first_iteration_escape_witness :
    1 ≤ (⟨10, 2, 2, 3, 1, 0, 0, 50000, 64, DrawMode.All, false, 2⟩ : Args).limit ∧
      (|(mandelbrot (mandelbrot ⟨0, 0⟩ (3, 3) ⟨10, 2, 2, 3, 1, 0, 0, 50000, 64, DrawMode.All, false, 2⟩)
          (3, 3) ⟨10, 2, 2, 3, 1, 0, 0, 50000, 64, DrawMode.All, false, 2⟩).im| >
          (⟨10, 2, 2, 3, 1, 0, 0, 50000, 64, DrawMode.All, false, 2⟩ : Args).bounds ∨
        |(mandelbrot (mandelbrot ⟨0, 0⟩ (3, 3) ⟨10, 2, 2, 3, 1, 0, 0, 50000, 64, DrawMode.All, false, 2⟩)
          (3, 3) ⟨10, 2, 2, 3, 1, 0, 0, 50000, 64, DrawMode.All, false, 2⟩).re| >
          (⟨10, 2, 2, 3, 1, 0, 0, 50000, 64, DrawMode.All, false, 2⟩ : Args).bounds) ∧
      ((iterPoints ⟨10, 2, 2, 3, 1, 0, 0, 50000, 64, DrawMode.All, false, 2⟩ (3, 3)).1.length = 2 ∧
        (iterPoints ⟨10, 2, 2, 3, 1, 0, 0, 50000, 64, DrawMode.All, false, 2⟩ (3, 3)).2 = true) := by
  refine ⟨by norm_num, ?_, ?_⟩
  · left
    norm_num [mandelbrot, Cq.powNat, Cq.mul, Cq.add]
  · exact first_iteration_escape ⟨10, 2, 2, 3, 1, 0, 0, 50000, 64, DrawMode.All, false, 2⟩ (3, 3)
      (by norm_num) (by left; norm_num [mandelbrot, Cq.powNat, Cq.mul, Cq.add])

/-- C5 counterexample: with `bounds = 9/10`, `pow = 2`, `limit = 2`, the
coordinate `c = (-1, 0)` has modulus `1 > bounds` (its squared norm is `1`),
yet the first loop iterate is `0`, inside the bound, and the trace has length
3, refuting the claimed length of exactly 2. -/
theorem first_iteration_escape_cex :
    Cq.normSq ⟨-1, 0⟩ = 1 ∧
      (⟨10, 9/10, 2, 2, 1, 0, 0, 50000, 64, DrawMode.All, false, 2⟩ : Args).bounds < 1 ∧
      (iterPoints ⟨10, 9/10, 2, 2, 1, 0, 0, 50000, 64, DrawMode.All, false, 2⟩ (-1, 0)).1.length
        = 3 := by
  refine ⟨by norm_num [Cq.normSq], by norm_num, ?_⟩
  norm_num [iterPoints, iterLoop, mandelbrot, Cq.powNat, Cq.mul, Cq.add]

/-- C7: for every configuration and every coordinate grid, the set of grid
coordinates whose traces are kept under draw mode `All` is the union of the
sets kept under `Escaped` and under `Trapped`, and those two sets are
disjoint. -/
theorem drawMode_partition (args : Args) (grid : Set (ℚ × ℚ)) :
    {c ∈ grid | (iterate_coordinate c (setMode args DrawMode.All)).isSome} =
        {c ∈ grid | (iterate_coordinate c (setMode args DrawMode.Escaped)).isSome} ∪
          {c ∈ grid | (iterate_coordinate c (setMode args DrawMode.Trapped)).isSome} ∧
      Disjoint {c ∈ grid | (iterate_coordinate c (setMode args DrawMode.Escaped)).isSome}
        {c ∈ grid | (iterate_coordinate c (setMode args DrawMode.Trapped)).isSome} := by
  have hE : ∀ c : ℚ × ℚ,
      (iterate_coordinate c (setMode args DrawMode.Escaped)).isSome = (iterPoints args c).2 := by
    intro c
    simp only [iterate_coordinate, iterPoints_setMode, setMode_mode]
    cases (iterPoints args c).2 <;> rfl
  have hT : ∀ c : ℚ × ℚ,
      (iterate_coordinate c (setMode args DrawMode.Trapped)).isSome = !(iterPoints args c).2 := by
    intro c
    simp only [iterate_coordinate, iterPoints_setMode, setMode_mode]
    cases (iterPoints args c).2 <;> rfl
  have hA : ∀ c : ℚ × ℚ,
      (iterate_coordinate c (setMode args DrawMode.All)).isSome = true := by
    intro c
    simp only [iterate_coordinate, iterPoints_setMode, setMode_mode]
    rfl
  constructor
  · ext c
    simp only [Set.mem_setOf_eq, Set.mem_union, hA, hE, hT]
    cases h : (iterPoints args c).2 <;> simp
  · rw [Set.disjoint_left]
    intro c hc1 hc2
    simp only [Set.mem_setOf_eq, hE, hT] at hc1 hc2
    rcases hc1 with ⟨_, h1⟩
    rcases hc2 with ⟨_, h2⟩
    rw [h1] at h2
    simp at h2

lemma takeWhile_eq_take_of {α : Type} (p : α → Bool) :
    ∀ (l : List α) (N : ℕ),
      (∀ (i : ℕ) (h : i < l.length), p l[i] = decide (i < N)) →
      l.takeWhile p = l.take N := by
  intro l
  induction l with
  | nil => intro N _; simp
  | cons a t ih =>
    intro N h
    cases N with
    | zero =>
      have h0 := h 0 (by simp)
      simp only [List.getElem_cons_zero, decide_eq_false_iff_not, Nat.lt_irrefl,
        not_false_eq_true, decide_False] at h0
      simp [List.takeWhile_cons, h0]
    | succ N =>
      have h0 := h 0 (by simp)
      simp only [List.getElem_cons_zero, Nat.succ_pos, decide_True] at h0
      have ht : t.takeWhile p = t.take N := by
        apply ih
        intro i hi
        have hh := h (i + 1) (by simpa using Nat.succ_lt_succ hi)
        simpa using hh
      simp [List.takeWhile_cons, h0, ht]

lemma grid_lt_iff (b d : ℚ) (hd : 0 < d) (k : ℕ) :
    (-b + (k : ℚ) * d < b) ↔ k < numCoords b d := by
  rw [numCoords, Nat.lt_ceil, lt_div_iff₀ hd]
  constructor <;> intro h <;> linarith

lemma gridCoords_eq_range (b d : ℚ) (hd : 0 < d) (M : ℕ) (hM : numCoords b d ≤ M) :
    gridCoords b d M = (List.range (numCoords b d)).map fun k : ℕ => -b + (k : ℚ) * d := by
  have hp : ∀ (i : ℕ) (h : i < ((List.range M).map fun k : ℕ => -b + (k : ℚ) * d).length),
      (fun x => decide (x < b)) ((List.range M).map fun k : ℕ => -b + (k : ℚ) * d)[i]
        = decide (i < numCoords b d) := by
    intro i hi
    simp only [List.getElem_map, List.getElem_range, decide_eq_decide]
    exact grid_lt_iff b d hd i
  rw [gridCoords, takeWhile_eq_take_of _ _ _ hp, ← List.map_take, List.take_range,
    Nat.min_eq_left hM]

/-- C6: for `bounds > 0` and `delta > 0` the coordinate generator produces
exactly the ordered sequence `x_k = -bounds + k * delta` for `k = 0, 1, ...`
while `x_k < bounds` (i.e. for exactly `k < numCoords`), the same sequence on
both axes, and the full grid is the Cartesian product of this sequence with
itself (`M` is the modelled length of the infinite source stream; any
`M ≥ numCoords` gives the same result). -/
theorem grid_spec (b d : ℚ) (_hb : 0 < b) (hd : 0 < d) (M : ℕ) (hM : numCoords b d ≤ M) :
    gridCoords b d M = (List.range (numCoords b d)).map (fun k : ℕ => -b + (k : ℚ) * d) ∧
      (∀ k : ℕ, (-b + (k : ℚ) * d < b ↔ k < numCoords b d)) ∧
      allCoords b d M =
        ((List.range (numCoords b d)).map fun k : ℕ => -b + (k : ℚ) * d).product
          ((List.range (numCoords b d)).map fun k : ℕ => -b + (k : ℚ) * d) := by
  have hg := gridCoords_eq_range b d hd M hM
  exact ⟨hg, fun k => grid_lt_iff b d hd k, by rw [allCoords, hg]⟩

/-- C6 witness: the end-to-end scenario of the spec, `bounds = 2`, `delta = 2`:
the per-axis sequence is `[-2, 0]` and the grid its square. -/
theorem grid_spec_witness :
    (0 : ℚ) < 2 ∧ (0 : ℚ) < 2 ∧ numCoords 2 2 ≤ 5 ∧
      (gridCoords 2 2 5 = (List.range (numCoords 2 2)).map (fun k : ℕ => -2 + (k : ℚ) * 2) ∧
        (∀ k : ℕ, ((-2 : ℚ) + (k : ℚ) * 2 < 2 ↔ k < numCoords 2 2)) ∧
        allCoords 2 2 5 =
          ((List.range (numCoords 2 2)).map fun k : ℕ => -2 + (k : ℚ) * 2).product
            ((List.range (numCoords 2 2)).map fun k : ℕ => -2 + (k : ℚ) * 2)) := by
  have hnc : numCoords 2 2 = 2 := by
    rw [numCoords]
    norm_num
  refine ⟨by norm_num, by norm_num, by rw [hnc]; omega, ?_⟩
  exact grid_spec 2 2 (by norm_num) (by norm_num) 5 (by rw [hnc]; omega)

lemma toI32_natCast (n : ℕ) (hn : n < 2 ^ 31) : toI32 (n : ℚ) = (n : ℤ) := by
  have h1 : ratTrunc (n : ℚ) = (n : ℤ) := by
    rw [ratTrunc, if_pos (by positivity)]
    exact_mod_cast Int.floor_natCast n
  have h2 : (n : ℤ) ≤ 2 ^ 31 - 1 := by
    have : (n : ℤ) < 2 ^ 31 := by exact_mod_cast hn
    omega
  rw [toI32, h1, min_eq_right h2, max_eq_right (by omega)]

/-- C8: for every in-canvas pixel `(x, y)` (with `0 ≤ x, y < size ≤ 2^31`, the
range on which the `as i32` cast is the identity) and `zoom > 0`, composing
`to_complex_coord` then `to_image_coord` recovers `(x, y)` exactly; in the
exact-rational model of the `f64` arithmetic the round trip is error-free. -/
theorem coord_roundtrip (args : Args) (x y : ℕ) (hz : 0 < args.zoom)
    (hx : x < args.size) (hy : y < args.size) (hs : args.size ≤ 2 ^ 31) :
    to_image_coord (to_complex_coord x y args) args = ((x : ℤ), (y : ℤ)) := by
  have hzne : args.zoom ≠ 0 := ne_of_gt hz
  have key : ∀ n : ℕ, ∀ off : ℚ,
      (args.size : ℚ) / 2 +
        ((((n : ℚ) - (args.size : ℚ) / 2) / args.zoom - off) + off) * args.zoom = (n : ℚ) := by
    intro n off
    field_simp
    ring
  simp only [to_image_coord, to_complex_coord]
  rw [key x args.re_off, key y args.im_off,
    toI32_natCast x (lt_of_lt_of_le hx hs), toI32_natCast y (lt_of_lt_of_le hy hs)]

/-- C8 witness: at `size = 10`, `zoom = 1`, `re_off = 2/5`, the pixel `(3, 7)`
round-trips exactly. -/
theorem coord_roundtrip_witness :
    0 < (⟨10, 2, 1/100, 100, 1, 2/5, 0, 50000, 64, DrawMode.All, false, 2⟩ : Args).zoom ∧
      3 < (⟨10, 2, 1/100, 100, 1, 2/5, 0, 50000, 64, DrawMode.All, false, 2⟩ : Args).size ∧
      7 < (⟨10, 2, 1/100, 100, 1, 2/5, 0, 50000, 64, DrawMode.All, false, 2⟩ : Args).size ∧
      (⟨10, 2, 1/100, 100, 1, 2/5, 0, 50000, 64, DrawMode.All, false, 2⟩ : Args).size ≤ 2 ^ 31 ∧
      to_image_coord
          (to_complex_coord 3 7 ⟨10, 2, 1/100, 100, 1, 2/5, 0, 50000, 64, DrawMode.All, false, 2⟩)
          ⟨10, 2, 1/100, 100, 1, 2/5, 0, 50000, 64, DrawMode.All, false, 2⟩ = ((3 : ℤ), (7 : ℤ)) := by
  refine ⟨by norm_num, by norm_num, by norm_num, by norm_num, ?_⟩
  exact coord_roundtrip ⟨10, 2, 1/100, 100, 1, 2/5, 0, 50000, 64, DrawMode.All, false, 2⟩ 3 7
    (by norm_num) (by norm_num) (by norm_num) (by norm_num)

lemma overlayLoop_origin (args : Args) (hp : 1 ≤ args.pow) :
    ∀ n : ℕ, overlayLoop args (0, 0) n ⟨0, 0⟩ = false := by
  have hm : mandelbrot ⟨0, 0⟩ ((0 : ℚ), (0 : ℚ)) args = ⟨0, 0⟩ := by
    simp [mandelbrot, powNat_zero_eq args.pow hp, Cq.add]
  intro n
  induction n with
  | zero => rfl
  | succ n ih =>
    simp only [overlayLoop, hm]
    rw [if_neg (by norm_num [Cq.normSq])]
    exact ih

/-- C9: with the overlay enabled, `limit ≥ 1` and `pow ≥ 1`, a pixel whose
inverse-mapped complex value is `0 + 0i` gets the trapped color
`(0, 0, 0, 255)` (the orbit of `0` is constantly `0` under the fixed
`|z|² > 4` threshold), and a pixel whose inverse-mapped value is `3 + 3i`
escapes on the very first iteration (`|3 + 3i|² = 18 > 4`) and gets the
escaped color `(128, 0, 0, 255)`. -/
theorem overlay_scenario (args : Args) (x0 y0 x1 y1 : ℕ)
    (hl : 1 ≤ args.limit) (hp : 1 ≤ args.pow)
    (h0 : to_complex_coord x0 y0 args = ⟨0, 0⟩)
    (h1 : to_complex_coord x1 y1 args = ⟨3, 3⟩) :
    overlayColor args x0 y0 = ⟨0, 0, 0, 255⟩ ∧ overlayColor args x1 y1 = ⟨128, 0, 0, 255⟩ := by
  obtain ⟨m, hm⟩ : ∃ m, args.limit = m + 1 := ⟨args.limit - 1, by omega⟩
  constructor
  · have hloop : overlayLoop args (0 : ℚ × ℚ) args.limit ⟨0, 0⟩ = false :=
      overlayLoop_origin args hp args.limit
    simp only [overlayColor, h0]
    simp [hloop]
  · have hz1 : mandelbrot ⟨0, 0⟩ ((3 : ℚ), (3 : ℚ)) args = ⟨3, 3⟩ := by
      simp [mandelbrot, powNat_zero_eq args.pow hp, Cq.add]
    have hloop : overlayLoop args ((3 : ℚ), (3 : ℚ)) args.limit ⟨0, 0⟩ = true := by
      rw [hm]
      simp only [overlayLoop, hz1]
      rw [if_pos (by norm_num [Cq.normSq])]
    simp only [overlayColor, h1]
    simp [hloop]

/-- C9 witness: at `size = 10`, `zoom = 1`, zero offsets, `limit = 1`,
`pow = 2`, the center pixel `(5, 5)` maps to `0 + 0i` and is trapped, and the
pixel `(8, 8)` maps to `3 + 3i` and is escaped. -/
theorem overlay_scenario_witness :
    1 ≤ (⟨10, 2, 2, 1, 1, 0, 0, 50000, 64, DrawMode.All, true, 2⟩ : Args).limit ∧
      1 ≤ (⟨10, 2, 2, 1, 1, 0, 0, 50000, 64, DrawMode.All, true, 2⟩ : Args).pow ∧
      to_complex_coord 5 5 ⟨10, 2, 2, 1, 1, 0, 0, 50000, 64, DrawMode.All, true, 2⟩ = ⟨0, 0⟩ ∧
      to_complex_coord 8 8 ⟨10, 2, 2, 1, 1, 0, 0, 50000, 64, DrawMode.All, true, 2⟩ = ⟨3, 3⟩ ∧
      (overlayColor ⟨10, 2, 2, 1, 1, 0, 0, 50000, 64, DrawMode.All, true, 2⟩ 5 5 = ⟨0, 0, 0, 255⟩ ∧
        overlayColor ⟨10, 2, 2, 1, 1, 0, 0, 50000, 64, DrawMode.All, true, 2⟩ 8 8 =
          ⟨128, 0, 0, 255⟩) := by
  have hc0 : to_complex_coord 5 5 ⟨10, 2, 2, 1, 1, 0, 0, 50000, 64, DrawMode.All, true, 2⟩
      = ⟨0, 0⟩ := by
    rw [to_complex_coord]
    norm_num
  have hc1 : to_complex_coord 8 8 ⟨10, 2, 2, 1, 1, 0, 0, 50000, 64, DrawMode.All, true, 2⟩
      = ⟨3, 3⟩ := by
    rw [to_complex_coord]
    norm_num
  refine ⟨by norm_num, by norm_num, hc0, hc1, ?_⟩
  exact overlay_scenario ⟨10, 2, 2, 1, 1, 0, 0, 50000, 64, DrawMode.All, true, 2⟩ 5 5 8 8
    (by norm_num) (by norm_num) hc0 hc1

/-- C10: when `limit = 0` the overlay loop body never runs, so `did_escape`
stays false and every overlay pixel gets the trapped color `(0, 0, 0, 255)`,
whatever complex value the pixel maps to. -/
theorem overlay_limit_zero (args : Args) (h : args.limit = 0) (x y : ℕ) :
    overlayColor args x y = ⟨0, 0, 0, 255⟩ := by
  simp [overlayColor, h, overlayLoop]

/-- C10 witness: a concrete `limit = 0` configuration and pixel. -/
theorem overlay_limit_zero_witness :
    (⟨10, 2, 2, 0, 1, 0, 0, 50000, 64, DrawMode.All, true, 2⟩ : Args).limit = 0 ∧
      overlayColor ⟨10, 2, 2, 0, 1, 0, 0, 50000, 64, DrawMode.All, true, 2⟩ 3 4 =
        ⟨0, 0, 0, 255⟩ :=
  ⟨rfl, overlay_limit_zero ⟨10, 2, 2, 0, 1, 0, 0, 50000, 64, DrawMode.All, true, 2⟩ rfl 3 4⟩

/-- C1 (amended): the alpha byte of the pixel blended into the 8-bit output
image is the HIGH byte of the LUMINANCE channel (`i[0] >> 8`) of the 16-bit
canvas pixel, not the high byte of the alpha channel. -/
theorem to_u8_alpha_from_luma (p : LumaA16) (h : p.luma < 2 ^ 16) :
    (toU8Source p).a = p.luma / 2 ^ 8 := by
  have hs : p.luma >>> 8 = p.luma / 2 ^ 8 := Nat.shiftRight_eq_div_pow p.luma 8
  simp only [toU8Source, hs]
  exact Nat.mod_eq_of_lt (by omega)

/-- C1 witness: the canvas pixel with luminance `0x1234 = 4660` produces the
output alpha byte `0x12 = 18`. -/
theorem to_u8_alpha_from_luma_witness :
    (4660 : ℕ) < 2 ^ 16 ∧ (toU8Source ⟨4660, 7⟩).a = 4660 / 2 ^ 8 :=
  ⟨by norm_num, to_u8_alpha_from_luma ⟨4660, 7⟩ (by norm_num)⟩

/-- C1 counterexample: for the canvas pixel with luminance `0` and 16-bit
alpha `0xFF00 = 65280`, the alpha byte of the blended output pixel is `0`,
not the high byte `255` of the 16-bit alpha channel. -/
theorem to_u8_alpha_channel_cex :
    (toU8Source ⟨0, 65280⟩).a ≠ (⟨0, 65280⟩ : LumaA16).alpha >>> 8 := by
  decide

lemma aJoin_mem (a b : ℚ) (ha0 : 0 ≤ a) (ha1 : a ≤ 1) (hb0 : 0 ≤ b) (hb1 : b ≤ 1) :
    0 ≤ aJoin a b ∧ aJoin a b ≤ 1 := by
  unfold aJoin
  constructor
  · nlinarith
  · nlinarith

lemma goodPix_pixOf (a : ℚ) (h0 : 0 ≤ a) (h1 : a ≤ 1) : GoodPix (pixOf a) := by
  unfold pixOf GoodPix
  by_cases h : a = 0
  · simp [h]
  · simp only [h, if_false]
    right
    exact ⟨by trivial, lt_of_le_of_ne h0 (Ne.symm h), h1⟩

lemma pixOf_alpha (a : ℚ) : (pixOf a).alpha = a := by
  unfold pixOf
  by_cases h : a = 0 <;> simp [h]

lemma goodPix_alpha (p : Pix) (h : GoodPix p) : 0 ≤ p.alpha ∧ p.alpha ≤ 1 := by
  rcases h with h | ⟨_, h2, h3⟩
  · rw [h]
    norm_num
  · exact ⟨le_of_lt h2, h3⟩

lemma good_blend_eq (p q : Pix) (hp : GoodPix p) (hq : GoodPix q) :
    Pix.blend p q = pixOf (aJoin p.alpha q.alpha) := by
  rcases hp with hp | ⟨hp1, hp2, hp3⟩
  · rcases hq with hq | ⟨hq1, hq2, hq3⟩
    · rw [hp, hq]
      norm_num [Pix.blend, pixOf, aJoin]
    · have hne : q.alpha ≠ 0 := ne_of_gt hq2
      rw [hp]
      unfold Pix.blend pixOf aJoin
      norm_num [hne]
      exact hq1
  · rcases hq with hq | ⟨hq1, hq2, hq3⟩
    · have hne : p.alpha ≠ 0 := ne_of_gt hp2
      rw [hq]
      unfold Pix.blend pixOf aJoin
      norm_num [hne]
      rw [show (⟨1, p.alpha⟩ : Pix) = ⟨p.luma, p.alpha⟩ from by rw [hp1]]
    · have hq0 : q.alpha ≤ aJoin p.alpha q.alpha := by
        unfold aJoin
        nlinarith
      have haOut : aJoin p.alpha q.alpha ≠ 0 := ne_of_gt (lt_of_lt_of_le hq2 hq0)
      unfold Pix.blend pixOf
      unfold aJoin at haOut ⊢
      rw [if_neg haOut, if_neg haOut, hp1, hq1]
      congr 1
      rw [one_mul, one_mul,
        show q.alpha + p.alpha * (1 - q.alpha) = p.alpha + q.alpha - p.alpha * q.alpha from by ring]
      exact div_self haOut

lemma good_blend_closed (p q : Pix) (hp : GoodPix p) (hq : GoodPix q) :
    GoodPix (Pix.blend p q) := by
  rw [good_blend_eq p q hp hq]
  obtain ⟨hp0, hp1⟩ := goodPix_alpha p hp
  obtain ⟨hq0, hq1⟩ := goodPix_alpha q hq
  obtain ⟨h0, h1⟩ := aJoin_mem p.alpha q.alpha hp0 hp1 hq0 hq1
  exact goodPix_pixOf _ h0 h1

lemma good_blend_comm (p q : Pix) (hp : GoodPix p) (hq : GoodPix q) :
    Pix.blend p q = Pix.blend q p := by
  rw [good_blend_eq p q hp hq, good_blend_eq q p hq hp]
  congr 1
  unfold aJoin
  ring

lemma good_blend_assoc (p q r : Pix) (hp : GoodPix p) (hq : GoodPix q) (hr : GoodPix r) :
    Pix.blend (Pix.blend p q) r = Pix.blend p (Pix.blend q r) := by
  have hpq := good_blend_closed p q hp hq
  have hqr := good_blend_closed q r hq hr
  rw [good_blend_eq (Pix.blend p q) r hpq hr, good_blend_eq p (Pix.blend q r) hp hqr,
    good_blend_eq p q hp hq, good_blend_eq q r hq hr, pixOf_alpha, pixOf_alpha]
  congr 1
  unfold aJoin
  ring

lemma blend_fg_zero (q : Pix) (l : ℚ) (hq : GoodPix q) : Pix.blend q ⟨l, 0⟩ = q := by
  rcases hq with h | ⟨h1, h2, _⟩
  · rw [h]
    norm_num [Pix.blend]
  · have hne : q.alpha ≠ 0 := ne_of_gt h2
    unfold Pix.blend
    norm_num [hne]

lemma chunkPix_good (op : ℚ) (hop0 : 0 ≤ op) (hop1 : op ≤ 1) :
    ∀ p : Pix, ChunkPix op p → GoodPix p := by
  intro p hp
  induction hp with
  | zero => left; rfl
  | draw q cov hc0 hc1 hq ih =>
    show GoodPix (blend (lineColor op) q cov)
    unfold blend lineColor
    by_cases hz : op * cov = 0
    · rw [hz, blend_fg_zero q 1 ih]
      exact ih
    · have hs0 : 0 < op * cov := lt_of_le_of_ne (mul_nonneg hop0 hc0) (Ne.symm hz)
      have hs1 : op * cov ≤ 1 := mul_le_one₀ hop1 hc0 hc1
      exact good_blend_closed q ⟨1, op * cov⟩ ih (Or.inr ⟨rfl, hs0, hs1⟩)

lemma canvasBlend_good : ∀ (a b : List Pix), (∀ p ∈ a, GoodPix p) → (∀ p ∈ b, GoodPix p) →
    ∀ p ∈ canvasBlend a b, GoodPix p
  | [], _, _, _ => by simp [canvasBlend]
  | _ :: _, [], _, _ => by simp [canvasBlend]
  | x :: t, y :: s, ha, hb => by
    simp only [canvasBlend, List.zipWith_cons_cons, List.mem_cons]
    rintro p (rfl | hp)
    · exact good_blend_closed x y (ha x (by simp)) (hb y (by simp))
    · exact canvasBlend_good t s (fun z hz => ha z (by simp [hz]))
        (fun z hz => hb z (by simp [hz])) p hp

lemma canvasBlend_comm : ∀ (a b : List Pix), (∀ p ∈ a, GoodPix p) → (∀ p ∈ b, GoodPix p) →
    canvasBlend a b = canvasBlend b a
  | [], b, _, _ => by cases b <;> simp [canvasBlend]
  | _ :: _, [], _, _ => by simp [canvasBlend]
  | x :: t, y :: s, ha, hb => by
    have h1 := good_blend_comm x y (ha x (by simp)) (hb y (by simp))
    have h2 := canvasBlend_comm t s (fun z hz => ha z (by simp [hz]))
      (fun z hz => hb z (by simp [hz]))
    simp only [canvasBlend, List.zipWith_cons_cons] at h2 ⊢
    rw [h1, h2]

lemma canvasBlend_assoc : ∀ (a b c : List Pix), (∀ p ∈ a, GoodPix p) → (∀ p ∈ b, GoodPix p) →
    (∀ p ∈ c, GoodPix p) →
    canvasBlend (canvasBlend a b) c = canvasBlend a (canvasBlend b c)
  | [], _, _, _, _, _ => by simp [canvasBlend]
  | _ :: _, [], _, _, _, _ => by simp [canvasBlend]
  | _ :: _, _ :: _, [], _, _, _ => by simp [canvasBlend]
  | x :: t, y :: s, z :: u, ha, hb, hc => by
    have h1 := good_blend_assoc x y z (ha x (by simp)) (hb y (by simp)) (hc z (by simp))
    have h2 := canvasBlend_assoc t s u (fun w hw => ha w (by simp [hw]))
      (fun w hw => hb w (by simp [hw])) (fun w hw => hc w (by simp [hw]))
    simp only [canvasBlend, List.zipWith_cons_cons] at h2 ⊢
    rw [h1, h2]

lemma foldl_canvasBlend_perm (l1 l2 : List (List Pix)) (h : l1.Perm l2) :
    ∀ acc : List Pix, (∀ p ∈ acc, GoodPix p) → (∀ c ∈ l1, ∀ p ∈ c, GoodPix p) →
      List.foldl canvasBlend acc l1 = List.foldl canvasBlend acc l2 := by
  induction h with
  | nil => intro acc _ _; rfl
  | cons x h ih =>
    intro acc hacc hl
    simp only [List.foldl_cons]
    exact ih (canvasBlend acc x) (canvasBlend_good acc x hacc (hl x (by simp)))
      (fun c hc => hl c (by simp [hc]))
  | swap x y t =>
    intro acc hacc hl
    simp only [List.foldl_cons]
    have hx := hl x (by simp)
    have hy := hl y (by simp)
    have hkey : canvasBlend (canvasBlend acc y) x = canvasBlend (canvasBlend acc x) y := by
      rw [canvasBlend_assoc acc y x hacc hy hx, canvasBlend_assoc acc x y hacc hx hy,
        canvasBlend_comm y x hy hx]
    rw [hkey]
  | trans h1 h2 ih1 ih2 =>
    intro acc hacc hl
    rw [ih1 acc hacc hl, ih2 acc hacc (fun c hc => hl c (h1.mem_iff.mpr hc))]

/-- C4 (spec-modelled blend): folding any multiset of chunk-renderer canvases
of equal dimension into the zero accumulator canvas with the per-pixel
alpha-over blend is invariant under permutation of the chunks, and the
canvas-level combine is associative and commutative on chunk-renderer
canvases — so any fold order and any grouping of the parallel reduction give
a pixel-identical accumulated canvas. -/
theorem reduce_fold_invariant (op : ℚ) (n : ℕ) (hop0 : 0 ≤ op) (hop1 : op ≤ 1)
    (l1 l2 : List (List Pix)) (hperm : l1.Perm l2)
    (hl : ∀ c ∈ l1, ChunkCanvas op n c)
    (a b c : List Pix)
    (ha : ChunkCanvas op n a) (hb : ChunkCanvas op n b) (hc : ChunkCanvas op n c) :
    List.foldl canvasBlend (zeroCanvas n) l1 = List.foldl canvasBlend (zeroCanvas n) l2 ∧
      canvasBlend (canvasBlend a b) c = canvasBlend a (canvasBlend b c) ∧
      canvasBlend a b = canvasBlend b a := by
  have hgood : ∀ c0 ∈ l1, ∀ p ∈ c0, GoodPix p := fun c0 hc0 p hp =>
    chunkPix_good op hop0 hop1 p ((hl c0 hc0).2 p hp)
  have hga : ∀ p ∈ a, GoodPix p := fun p hp => chunkPix_good op hop0 hop1 p (ha.2 p hp)
  have hgb : ∀ p ∈ b, GoodPix p := fun p hp => chunkPix_good op hop0 hop1 p (hb.2 p hp)
  have hgc : ∀ p ∈ c, GoodPix p := fun p hp => chunkPix_good op hop0 hop1 p (hc.2 p hp)
  have hz : ∀ p ∈ zeroCanvas n, GoodPix p := by
    intro p hp
    rw [List.eq_of_mem_replicate hp]
    left
    rfl
  exact ⟨foldl_canvasBlend_perm l1 l2 hperm (zeroCanvas n) hz hgood,
    canvasBlend_assoc a b c hga hgb hgc, canvasBlend_comm a b hga hgb⟩

lemma chunkPix_half : ChunkPix 1 ⟨1, 1/2⟩ := by
  have h : blend (lineColor 1) ⟨0, 0⟩ (1/2) = ⟨1, 1/2⟩ := by
    norm_num [blend, Pix.blend, lineColor]
  have hd := @ChunkPix.draw 1 ⟨0, 0⟩ (1/2) (by norm_num) (by norm_num) (@ChunkPix.zero 1)
  rwa [h] at hd

lemma chunkPix_third : ChunkPix 1 ⟨1, 1/3⟩ := by
  have h : blend (lineColor 1) ⟨0, 0⟩ (1/3) = ⟨1, 1/3⟩ := by
    norm_num [blend, Pix.blend, lineColor]
  have hd := @ChunkPix.draw 1 ⟨0, 0⟩ (1/3) (by norm_num) (by norm_num) (@ChunkPix.zero 1)
  rwa [h] at hd

lemma chunkCanvas_half : ChunkCanvas 1 1 [⟨1, 1/2⟩] := by
  refine ⟨rfl, ?_⟩
  intro p hp
  rw [List.mem_singleton] at hp
  rw [hp]
  exact chunkPix_half

lemma chunkCanvas_third : ChunkCanvas 1 1 [⟨1, 1/3⟩] := by
  refine ⟨rfl, ?_⟩
  intro p hp
  rw [List.mem_singleton] at hp
  rw [hp]
  exact chunkPix_third

/-- C4 witness: two singleton chunk canvases at base opacity 1, folded in both
orders from the zero canvas, plus associativity and commutativity at concrete
chunk canvases. -/
theorem reduce_fold_invariant_witness :
    (0 : ℚ) ≤ 1 ∧ (1 : ℚ) ≤ 1 ∧
      ([[(⟨1, 1/2⟩ : Pix)], [⟨1, 1/3⟩]] : List (List Pix)).Perm [[⟨1, 1/3⟩], [⟨1, 1/2⟩]] ∧
      (∀ c ∈ ([[(⟨1, 1/2⟩ : Pix)], [⟨1, 1/3⟩]] : List (List Pix)), ChunkCanvas 1 1 c) ∧
      ChunkCanvas 1 1 [(⟨1, 1/2⟩ : Pix)] ∧ ChunkCanvas 1 1 [(⟨1, 1/3⟩ : Pix)] ∧
      (List.foldl canvasBlend (zeroCanvas 1) [[(⟨1, 1/2⟩ : Pix)], [⟨1, 1/3⟩]] =
          List.foldl canvasBlend (zeroCanvas 1) [[⟨1, 1/3⟩], [⟨1, 1/2⟩]] ∧
        canvasBlend (canvasBlend [(⟨1, 1/2⟩ : Pix)] [⟨1, 1/3⟩]) [⟨1, 1/2⟩] =
          canvasBlend [(⟨1, 1/2⟩ : Pix)] (canvasBlend [⟨1, 1/3⟩] [⟨1, 1/2⟩]) ∧
        canvasBlend [(⟨1, 1/2⟩ : Pix)] [⟨1, 1/3⟩] =
          canvasBlend [⟨1, 1/3⟩] [(⟨1, 1/2⟩ : Pix)]) := by
  have hperm : ([[(⟨1, 1/2⟩ : Pix)], [⟨1, 1/3⟩]] : List (List Pix)).Perm
      [[⟨1, 1/3⟩], [⟨1, 1/2⟩]] :=
    List.Perm.swap ([(⟨1, 1/3⟩ : Pix)] : List Pix) ([(⟨1, 1/2⟩ : Pix)] : List Pix) []
  have hl : ∀ c ∈ ([[(⟨1, 1/2⟩ : Pix)], [⟨1, 1/3⟩]] : List (List Pix)), ChunkCanvas 1 1 c := by
    intro c hc
    rcases List.mem_cons.mp hc with h | hc2
    · rw [h]
      exact chunkCanvas_half
    · rw [List.mem_singleton.mp hc2]
      exact chunkCanvas_third
  refine ⟨by norm_num, by norm_num, hperm, hl, chunkCanvas_half, chunkCanvas_third, ?_⟩
  exact reduce_fold_invariant 1 1 (by norm_num) (by norm_num) _ _ hperm hl
    [⟨1, 1/2⟩] [⟨1, 1/3⟩] [⟨1, 1/2⟩] chunkCanvas_half chunkCanvas_third chunkCanvas_half
